import Mathlib

/-!
Verification of the raftbuntdb storage adapter (tidwall/raft-buntdb).

The Go source is shallowly embedded: byte strings become `List Nat`
(each element a byte value), the BuntDB engine state becomes an
association list sorted by the engine's lexicographic key order, and
each store method becomes a pure function over that state.  Engine
failures other than key-not-found are injected through explicit
oracles, matching the spec's treatment of the engine as an external
collaborator that may fail any single operation.
-/

namespace Raftbuntdb

/-- The size of the uint64 value space, 2^64. -/
def N64 : Nat := 2 ^ 64

/-- Go byte-wise string comparison s1 < s2: lexicographic on bytes, a
proper prefix sorts before any extension. -/
def lexLt : List Nat → List Nat → Bool
  | [], [] => false
  | [], _ :: _ => true
  | _ :: _, [] => false
  | a :: as, b :: bs => if a < b then true else if b < a then false else lexLt as bs

/-- binary.LittleEndian.PutUint64 restricted to n bytes: byte k holds
(u >> 8*k) mod 256, least significant byte first. -/
def putLE : Nat → Nat → List Nat
  | 0, _ => []
  | n + 1, u => u % 256 :: putLE n (u / 256)

/-- binary.LittleEndian.Uint64 restricted to n bytes: reads the first n
bytes of the buffer, least significant first. -/
def toLE : Nat → List Nat → Nat
  | 0, _ => 0
  | _ + 1, [] => 0
  | n + 1, b :: bs => b + 256 * toLE n bs

/-- The uint64ToString of the little-endian snapshot (part_003): the
8-byte little-endian encoding of u. -/
def uint64ToStringLE (u : Nat) : List Nat := putLE 8 u

/-- The stringToUint64 of the little-endian snapshot (part_003):
binary.LittleEndian.Uint64 of the key bytes. -/
def stringToUint64LE (s : List Nat) : Nat := toLE 8 s

/-- Decimal digit loop of strconv.FormatUint(u, 10): most significant
digit first as ASCII bytes, empty for 0.  The fuel argument bounds the
repeated division by 10 and any fuel at least u is enough. -/
def toDecAux : Nat → Nat → List Nat
  | 0, _ => []
  | f + 1, u => if u = 0 then [] else toDecAux f (u / 10) ++ [u % 10 + 48]

/-- strconv.FormatUint(u, 10): the ASCII decimal representation of u,
most significant digit first, "0" for zero. -/
def formatUint10 (u : Nat) : List Nat :=
  if u = 0 then [48] else toDecAux u u

/-- uint64ToString of bunt_store.go / part_004: prepend twenty ASCII
zeros to the decimal representation and keep the last twenty bytes,
giving the 20-digit zero-padded decimal key suffix. -/
def uint64ToString (u : Nat) : List Nat :=
  let s := List.replicate 20 48 ++ formatUint10 u
  s.drop (s.length - 20)

/-- strconv.ParseUint(s, 10, 64): (value, ok).  On a syntax error Go
returns value 0 with an error, on a range error the clamped maximum
with an error; ok is false in both error cases. -/
def parseUint64 (s : List Nat) : Nat × Bool :=
  if s ≠ [] ∧ s.all (fun c => 48 ≤ c && c ≤ 57) then
    let n := s.foldl (fun a c => a * 10 + (c - 48)) 0
    if n < N64 then (n, true) else (N64 - 1, false)
  else (0, false)

/-- stringToUint64 of bunt_store.go / part_004: ParseUint with the
error discarded. -/
def stringToUint64 (s : List Nat) : Nat := (parseUint64 s).1

/-- A raft.Log record: index and term are uint64, the type tag is one
byte, data is an arbitrary byte payload. -/
structure RaftLog where
  index : Nat
  term : Nat
  type : Nat
  data : List Nat
  deriving DecidableEq, Repr

/-- The error values the store layer works with: the engine's
not-found sentinel, the store's own ErrKeyNotFound, raft's
ErrLogNotFound, the codec's invalid-buffer error, and opaque engine
errors (I/O failure and the like), distinguished by a code. -/
inductive Err where
  | notFound
  | keyNotFound
  | logNotFound
  | invalidBuffer
  | io (code : Nat)
  deriving DecidableEq, Repr

deriving instance DecidableEq for Except

/-- encodeLog: a 17-byte header (little-endian index, little-endian
term, one type byte) followed by the payload verbatim. -/
def encodeLog (l : RaftLog) : List Nat :=
  putLE 8 l.index ++ putLE 8 l.term ++ [l.type % 256] ++ l.data

/-- decodeLog: rejects buffers shorter than 17 bytes with the
invalid-buffer error, otherwise reads index from bytes [0:8), term
from [8:16), the raw type tag from byte 16 and the rest as data. -/
def decodeLog (buf : List Nat) : Except Err RaftLog :=
  if buf.length < 17 then .error .invalidBuffer
  else .ok { index := toLE 8 buf, term := toLE 8 (buf.drop 8),
             type := buf.getD 16 0, data := buf.drop 17 }

/-! ### Little-endian codec lemmas -/

theorem putLE_length (n : Nat) : ∀ u, (putLE n u).length = n := by
  induction n with
  | zero => intro u; rfl
  | succ n ih => intro u; simp [putLE, ih]

theorem toLE_putLE_append (n : Nat) : ∀ u rest, u < 256 ^ n →
    toLE n (putLE n u ++ rest) = u := by
  induction n with
  | zero => intro u rest h; simp at h; simp [h, toLE]
  | succ n ih =>
    intro u rest h
    have hdiv : u / 256 < 256 ^ n := by
      rw [Nat.div_lt_iff_lt_mul (by norm_num)]
      calc u < 256 ^ (n + 1) := h
        _ = 256 ^ n * 256 := by ring
    have key := ih (u / 256) rest hdiv
    show toLE (n + 1) ((u % 256 :: putLE n (u / 256)) ++ rest) = u
    rw [show (u % 256 :: putLE n (u / 256)) ++ rest
          = u % 256 :: (putLE n (u / 256) ++ rest) from rfl]
    rw [show toLE (n + 1) (u % 256 :: (putLE n (u / 256) ++ rest))
          = u % 256 + 256 * toLE n (putLE n (u / 256) ++ rest) from rfl]
    rw [key]
    omega

theorem drop_putLE_append (n : Nat) (u : Nat) (rest : List Nat) :
    (putLE n u ++ rest).drop n = rest := by
  rw [List.drop_append_of_le_length (by rw [putLE_length])]
  rw [List.drop_of_length_le (by rw [putLE_length])]
  simp

theorem getD_append_ge (as bs : List Nat) : ∀ n, as.length ≤ n →
    (as ++ bs).getD n 0 = bs.getD (n - as.length) 0 := by
  induction as with
  | nil => intro n h; simp
  | cons a as ih =>
    intro n h
    match n, h with
    | n + 1, h => simpa using ih n (by simpa using h)

theorem getD_eq_drop (bs : List Nat) : ∀ n, bs.getD n 0 = (bs.drop n).getD 0 0 := by
  induction bs with
  | nil => intro n; simp
  | cons b bs ih =>
    intro n
    match n with
    | 0 => simp
    | n + 1 => simp [ih n]

/-! ### Round-trip and decode-shape lemmas (codec) -/

theorem decode_encode (l : RaftLog) (hi : l.index < N64) (ht : l.term < N64)
    (hy : l.type < 256) : decodeLog (encodeLog l) = .ok l := by
  have h256 : (256 : Nat) ^ 8 = N64 := by norm_num [N64]
  have hidx : toLE 8 (encodeLog l) = l.index := by
    show toLE 8 (putLE 8 l.index ++ (putLE 8 l.term ++ ([l.type % 256] ++ l.data))) = l.index
    exact toLE_putLE_append 8 l.index _ (by rw [h256]; exact hi)
  have hdrop8 : (encodeLog l).drop 8 = putLE 8 l.term ++ ([l.type % 256] ++ l.data) := by
    show (putLE 8 l.index ++ (putLE 8 l.term ++ ([l.type % 256] ++ l.data))).drop 8 = _
    exact drop_putLE_append 8 l.index _
  have hterm : toLE 8 ((encodeLog l).drop 8) = l.term := by
    rw [hdrop8]; exact toLE_putLE_append 8 l.term _ (by rw [h256]; exact ht)
  have hdrop16 : (encodeLog l).drop 16 = [l.type % 256] ++ l.data := by
    have h88 : (encodeLog l).drop 16 = ((encodeLog l).drop 8).drop 8 := by
      rw [List.drop_drop]
    rw [h88, hdrop8]
    exact drop_putLE_append 8 l.term _
  have hty : (encodeLog l).getD 16 0 = l.type := by
    rw [getD_eq_drop, hdrop16]
    show ([l.type % 256] ++ l.data).getD 0 0 = l.type
    simp [Nat.mod_eq_of_lt hy]
  have hdata : (encodeLog l).drop 17 = l.data := by
    have h161 : (encodeLog l).drop 17 = ((encodeLog l).drop 16).drop 1 := by
      rw [List.drop_drop]
    rw [h161, hdrop16]; simp
  have hlen : ¬ (encodeLog l).length < 17 := by
    show ¬ (putLE 8 l.index ++ (putLE 8 l.term ++ ([l.type % 256] ++ l.data))).length < 17
    simp only [List.length_append, List.length_cons, List.length_nil, putLE_length]
    omega
  rw [decodeLog, if_neg hlen, hidx, hterm, hty, hdata]

/-- C7: decodeLog fails with the invalid-buffer error exactly on
inputs shorter than 17 bytes; on any input of at least 17 bytes it
succeeds and carries the raw byte at offset 16 through as the type
tag, whatever its value, with no validation. -/
theorem decodeLog_length_spec (buf : List Nat) :
    (buf.length < 17 → decodeLog buf = .error .invalidBuffer) ∧
    (17 ≤ buf.length → decodeLog buf =
      .ok { index := toLE 8 buf, term := toLE 8 (buf.drop 8),
            type := buf.getD 16 0, data := buf.drop 17 }) := by
  constructor
  · intro h; rw [decodeLog, if_pos h]
  · intro h; rw [decodeLog, if_neg (by omega)]

/-! ### Fixed-width decimal digits

rep n u is the n-digit most-significant-first base-10 digit list of u
(leading zeros kept); it is the arithmetic description of the 20-digit
zero-padded key suffix, connected to uint64ToString below. -/

def rep : Nat → Nat → List Nat
  | 0, _ => []
  | n + 1, u => u / 10 ^ n :: rep n (u % 10 ^ n)

theorem rep_zero : ∀ n, rep n 0 = List.replicate n 0 := by
  intro n
  induction n with
  | zero => rfl
  | succ n ih => simp [rep, ih, List.replicate_succ]

theorem rep_length : ∀ n u, (rep n u).length = n := by
  intro n
  induction n with
  | zero => intro u; rfl
  | succ n ih => intro u; simp [rep, ih]

theorem rep_lt_ten : ∀ n u, u < 10 ^ n → ∀ x ∈ rep n u, x < 10 := by
  intro n
  induction n with
  | zero => intro u h x hx; simp [rep] at hx
  | succ n ih =>
    intro u h x hx
    rcases List.mem_cons.1 hx with rfl | hx
    · rw [Nat.div_lt_iff_lt_mul (Nat.pos_pow_of_pos n (by norm_num))]
      calc u < 10 ^ (n + 1) := h
        _ = 10 * 10 ^ n := by ring
    · exact ih (u % 10 ^ n) (Nat.mod_lt _ (Nat.pos_pow_of_pos n (by norm_num))) x hx

theorem rep_snoc : ∀ n u, u < 10 ^ (n + 1) → rep (n + 1) u = rep n (u / 10) ++ [u % 10] := by
  intro n
  induction n with
  | zero =>
    intro u h
    have h10 : u < 10 := by simpa using h
    simp [rep, Nat.mod_eq_of_lt h10]
  | succ n ih =>
    intro u h
    have hmodlt : u % 10 ^ (n + 1) < 10 ^ (n + 1) :=
      Nat.mod_lt _ (Nat.pos_pow_of_pos (n + 1) (by norm_num))
    show u / 10 ^ (n + 1) :: rep (n + 1) (u % 10 ^ (n + 1))
        = rep (n + 1) (u / 10) ++ [u % 10]
    rw [ih (u % 10 ^ (n + 1)) hmodlt]
    show u / 10 ^ (n + 1) :: (rep n (u % 10 ^ (n + 1) / 10) ++ [u % 10 ^ (n + 1) % 10])
        = (u / 10 / 10 ^ n :: rep n (u / 10 % 10 ^ n)) ++ [u % 10]
    have e1 : u / 10 / 10 ^ n = u / 10 ^ (n + 1) := by
      rw [Nat.div_div_eq_div_mul]
      congr 1
      ring
    have e2 : u % 10 ^ (n + 1) % 10 = u % 10 := by
      apply Nat.mod_mod_of_dvd
      exact ⟨10 ^ n, by ring⟩
    have e3 : u % 10 ^ (n + 1) / 10 = u / 10 % 10 ^ n := by
      have : (10 : Nat) ^ (n + 1) = 10 * 10 ^ n := by ring
      rw [this]
      exact Nat.mod_mul_right_div_self u 10 (10 ^ n)
    rw [e1, e2, e3]
    simp

/-! ### The decimal formatter and its shape -/

theorem toDecAux_congr : ∀ u f g, u ≤ f → u ≤ g → toDecAux f u = toDecAux g u := by
  intro u
  induction u using Nat.strong_induction_on with
  | _ u ih =>
    intro f g hf hg
    match u, f, g, hf, hg with
    | 0, f, g, _, _ => cases f <;> cases g <;> simp [toDecAux]
    | u + 1, f + 1, g + 1, hf, hg =>
      show toDecAux (f + 1) (u + 1) = toDecAux (g + 1) (u + 1)
      rw [toDecAux, toDecAux, if_neg (by omega), if_neg (by omega)]
      have hdiv : (u + 1) / 10 < u + 1 := Nat.div_lt_self (by omega) (by norm_num)
      rw [ih ((u + 1) / 10) hdiv f g (by omega) (by omega)]

/-- The decimal digit string (ASCII, most significant first) of u;
empty for u = 0.  formatUint10 u equals decRepr u for positive u. -/
def decRepr (u : Nat) : List Nat := toDecAux u u

theorem decRepr_cons (u : Nat) (h : 1 ≤ u) :
    decRepr u = decRepr (u / 10) ++ [u % 10 + 48] := by
  obtain ⟨m, rfl⟩ : ∃ m, u = m + 1 := ⟨u - 1, by omega⟩
  show toDecAux (m + 1) (m + 1) = _
  rw [toDecAux, if_neg (by omega)]
  have hdiv : (m + 1) / 10 < m + 1 := Nat.div_lt_self (by omega) (by norm_num)
  rw [toDecAux_congr ((m + 1) / 10) m ((m + 1) / 10) (by omega) le_rfl]
  rfl

theorem decRepr_zero : decRepr 0 = [] := rfl

theorem decRepr_len_le : ∀ n u, u < 10 ^ n → (decRepr u).length ≤ n := by
  intro n
  induction n with
  | zero =>
    intro u h
    have : u = 0 := by simpa using h
    simp [this, decRepr_zero]
  | succ n ih =>
    intro u h
    rcases Nat.eq_zero_or_pos u with rfl | hpos
    · simp [decRepr_zero]
    · rw [decRepr_cons u hpos]
      have hdiv : u / 10 < 10 ^ n := by
        rw [Nat.div_lt_iff_lt_mul (by norm_num)]
        calc u < 10 ^ (n + 1) := h
          _ = 10 ^ n * 10 := by ring
      have := ih (u / 10) hdiv
      simp only [List.length_append, List.length_cons, List.length_nil]
      omega

theorem decRepr_len_ge : ∀ n u, 10 ^ n ≤ u → n + 1 ≤ (decRepr u).length := by
  intro n
  induction n with
  | zero =>
    intro u h
    have hpos : 1 ≤ u := by simpa using h
    rw [decRepr_cons u hpos]
    simp
  | succ n ih =>
    intro u h
    have hpos : 1 ≤ u := le_trans (Nat.one_le_pow _ _ (by norm_num)) h
    have hdiv : 10 ^ n ≤ u / 10 := by
      rw [Nat.le_div_iff_mul_le (by norm_num)]
      calc 10 ^ n * 10 = 10 ^ (n + 1) := by ring
        _ ≤ u := h
    have := ih (u / 10) hdiv
    rw [decRepr_cons u hpos]
    simp only [List.length_append, List.length_cons, List.length_nil]
    omega

theorem rep_map_eq_pad : ∀ n u, 1 ≤ u → u < 10 ^ n →
    (rep n u).map (· + 48) = List.replicate (n - (decRepr u).length) 48 ++ decRepr u := by
  intro n
  induction n with
  | zero => intro u h1 h2; simp at h2; omega
  | succ n ih =>
    intro u h1 h2
    rw [rep_snoc n u h2]
    rcases Nat.lt_or_ge u 10 with hu | hu
    · have hdiv : u / 10 = 0 := Nat.div_eq_of_lt hu
      have hmod : u % 10 = u := Nat.mod_eq_of_lt hu
      have hdec : decRepr u = [u + 48] := by
        rw [decRepr_cons u h1, hdiv, decRepr_zero, hmod]
        rfl
      rw [hdiv, hmod, rep_zero, hdec]
      simp [List.map_append, List.map_replicate]
    · have h10 : 1 ≤ u / 10 := by
        rw [Nat.le_div_iff_mul_le (by norm_num)]
        omega
      have hdivlt : u / 10 < 10 ^ n := by
        rw [Nat.div_lt_iff_lt_mul (by norm_num)]
        calc u < 10 ^ (n + 1) := h2
          _ = 10 ^ n * 10 := by ring
      have hlen : (decRepr (u / 10)).length ≤ n := decRepr_len_le n (u / 10) hdivlt
      rw [List.map_append, ih (u / 10) h10 hdivlt, decRepr_cons u h1]
      simp only [List.map_cons, List.map_nil, List.append_assoc]
      congr 2
      simp only [List.length_append, List.length_cons, List.length_nil]
      omega

theorem uint64ToString_eq (u : Nat) (h : u < 10 ^ 20) :
    uint64ToString u = (rep 20 u).map (· + 48) := by
  rcases Nat.eq_zero_or_pos u with rfl | hpos
  · decide
  · have hfmt : formatUint10 u = decRepr u := by
      rw [formatUint10, if_neg (by omega)]
      rfl
    have hlen : (decRepr u).length ≤ 20 := decRepr_len_le 20 u h
    show (List.replicate 20 48 ++ formatUint10 u).drop
        ((List.replicate 20 48 ++ formatUint10 u).length - 20) = _
    rw [hfmt]
    simp only [List.length_append, List.length_replicate]
    have harith : 20 + (decRepr u).length - 20 = (decRepr u).length := by omega
    rw [harith]
    rw [List.drop_append_of_le_length (by simpa using hlen)]
    rw [List.drop_replicate]
    rw [rep_map_eq_pad 20 u hpos h]

/-! ### Byte-wise order facts -/

theorem lexLt_irrefl : ∀ l, lexLt l l = false := by
  intro l
  induction l with
  | nil => rfl
  | cons a as ih => simp [lexLt, Nat.lt_irrefl, ih]

theorem lexLt_asymm : ∀ a b, lexLt a b = true → lexLt b a = false := by
  intro a
  induction a with
  | nil =>
    intro b h
    cases b with
    | nil => simp [lexLt] at h
    | cons x xs => rfl
  | cons x xs ih =>
    intro b h
    cases b with
    | nil => simp [lexLt] at h
    | cons y ys =>
      rcases Nat.lt_trichotomy x y with hxy | rfl | hxy
      · simp [lexLt, hxy, Nat.lt_asymm hxy]
      · simp only [lexLt, Nat.lt_irrefl, if_false] at h ⊢
        exact ih ys h
      · simp [lexLt, hxy, Nat.lt_asymm hxy] at h

theorem lexLt_append_left : ∀ p a b, lexLt (p ++ a) (p ++ b) = lexLt a b := by
  intro p a b
  induction p with
  | nil => rfl
  | cons x xs ih => simp [lexLt, Nat.lt_irrefl, ih]

theorem lexLt_append_self : ∀ p x, lexLt (p ++ x) p = false := by
  intro p
  induction p with
  | nil => intro x; cases x <;> rfl
  | cons a as ih => intro x; simp [lexLt, Nat.lt_irrefl, ih]

theorem lexLt_self_append : ∀ p x, x ≠ [] → lexLt p (p ++ x) = true := by
  intro p
  induction p with
  | nil =>
    intro x hx
    cases x with
    | nil => exact absurd rfl hx
    | cons y ys => rfl
  | cons a as ih => intro x hx; simp [lexLt, Nat.lt_irrefl, ih x hx]

theorem lexLt_map48 : ∀ a b, lexLt (a.map (· + 48)) (b.map (· + 48)) = lexLt a b := by
  intro a
  induction a with
  | nil => intro b; cases b <;> rfl
  | cons x xs ih =>
    intro b
    cases b with
    | nil => rfl
    | cons y ys =>
      show lexLt ((x + 48) :: xs.map (· + 48)) ((y + 48) :: ys.map (· + 48)) = _
      rcases Nat.lt_trichotomy x y with h | rfl | h
      · simp [lexLt, h]
      · simp only [lexLt, Nat.lt_irrefl, if_false, Nat.add_lt_add_iff_right]
        exact ih ys
      · simp [lexLt, h, Nat.lt_asymm h]

theorem rep_mono : ∀ n u v, u < v → v < 10 ^ n → lexLt (rep n u) (rep n v) = true := by
  intro n
  induction n with
  | zero => intro u v huv hv; simp at hv; omega
  | succ n ih =>
    intro u v huv hv
    show lexLt (u / 10 ^ n :: rep n (u % 10 ^ n)) (v / 10 ^ n :: rep n (v % 10 ^ n)) = true
    have hdivle : u / 10 ^ n ≤ v / 10 ^ n := Nat.div_le_div_right (le_of_lt huv)
    rcases lt_or_eq_of_le hdivle with hlt | heq
    · simp [lexLt, hlt]
    · rw [lexLt, heq, if_neg (Nat.lt_irrefl _), if_neg (Nat.lt_irrefl _)]
      apply ih
      · have keyu := Nat.div_add_mod u (10 ^ n)
        have keyv := Nat.div_add_mod v (10 ^ n)
        rw [heq] at keyu
        generalize 10 ^ n * (v / 10 ^ n) = A at keyu keyv
        omega
      · exact Nat.mod_lt _ (Nat.pos_pow_of_pos n (by norm_num))

theorem n64_lt_pow20 : N64 < 10 ^ 20 := by norm_num [N64]

theorem uint64ToString_mono (i j : Nat) (hij : i < j) (hj : j < N64) :
    lexLt (uint64ToString i) (uint64ToString j) = true := by
  have hj20 : j < 10 ^ 20 := lt_trans hj n64_lt_pow20
  have hi20 : i < 10 ^ 20 := lt_trans (lt_trans hij hj) n64_lt_pow20
  rw [uint64ToString_eq i hi20, uint64ToString_eq j hj20, lexLt_map48]
  exact rep_mono 20 i j hij hj20

theorem uint64ToString_inj (i j : Nat) (hi : i < N64) (hj : j < N64)
    (h : uint64ToString i = uint64ToString j) : i = j := by
  rcases Nat.lt_trichotomy i j with hlt | heq | hlt
  · have := uint64ToString_mono i j hlt hj
    rw [h, lexLt_irrefl] at this
    exact absurd this (by simp)
  · exact heq
  · have := uint64ToString_mono j i hlt hi
    rw [h, lexLt_irrefl] at this
    exact absurd this (by simp)

theorem uint64ToString_length (u : Nat) (h : u < 10 ^ 20) :
    (uint64ToString u).length = 20 := by
  rw [uint64ToString_eq u h]
  simp [rep_length]

/-! ### ParseUint round-trip -/

theorem foldl_rep : ∀ n u a, u < 10 ^ n →
    ((rep n u).map (· + 48)).foldl (fun acc c => acc * 10 + (c - 48)) a = a * 10 ^ n + u := by
  intro n
  induction n with
  | zero => intro u a h; simp at h; simp [rep, h]
  | succ n ih =>
    intro u a h
    simp only [rep, List.map_cons, List.foldl_cons, Nat.add_sub_cancel]
    rw [ih (u % 10 ^ n) _ (Nat.mod_lt _ (Nat.pos_pow_of_pos n (by norm_num)))]
    have key := Nat.div_add_mod u (10 ^ n)
    rw [add_mul, pow_succ]
    have e1 : a * 10 * 10 ^ n = a * (10 ^ n * 10) := by ring
    have e2 : u / 10 ^ n * 10 ^ n = 10 ^ n * (u / 10 ^ n) := by ring
    rw [e1, e2]
    generalize 10 ^ n * (u / 10 ^ n) = A at key ⊢
    omega

theorem parseUint64_uint64ToString (u : Nat) (h : u < N64) :
    parseUint64 (uint64ToString u) = (u, true) := by
  have h20 : u < 10 ^ 20 := lt_trans h n64_lt_pow20
  rw [uint64ToString_eq u h20]
  have hcond : (rep 20 u).map (· + 48) ≠ [] ∧
      ((rep 20 u).map (· + 48)).all (fun c => 48 ≤ c && c ≤ 57) = true := by
    constructor
    · intro hemp
      have : ((rep 20 u).map (· + 48)).length = 20 := by simp [rep_length]
      rw [hemp] at this
      simp at this
    · rw [List.all_eq_true]
      intro x hx
      rcases List.mem_map.1 hx with ⟨d, hd, rfl⟩
      have := rep_lt_ten 20 u h20 d hd
      simp only [Bool.and_eq_true, decide_eq_true_eq]
      omega
  rw [parseUint64, if_pos hcond]
  rw [foldl_rep 20 u 0 h20]
  simp only [Nat.zero_mul, Nat.zero_add]
  rw [if_pos h]

theorem stringToUint64_uint64ToString (u : Nat) (h : u < N64) :
    stringToUint64 (uint64ToString u) = u := by
  rw [stringToUint64, parseUint64_uint64ToString u h]

/-! ### The engine state

BuntDB is the external collaborator: an ordered, transactional
key-value engine.  Its state is an association list of (key, value)
byte strings kept sorted by lexLt; the store's theorems carry that
sortedness as a hypothesis where iteration order matters.  Engine
failures other than not-found are injected through Option Err
oracles. -/

/-- An engine key: a byte string. -/
abbrev Key := List Nat

/-- The engine state: (key, value) pairs, ascending in lexLt. -/
abbrev DB := List (Key × List Nat)

/-- The log-entry namespace prefix "l:". -/
def dbLogs : Key := [108, 58]

/-- The metadata namespace prefix "c:". -/
def dbConf : Key := [99, 58]

/-- The engine key StoreLogs writes for index i: "l:" plus the
20-digit decimal suffix. -/
def logKey (i : Nat) : Key := dbLogs ++ uint64ToString i

/-- The engine key Set and Get use for a caller key k: "c:" plus k. -/
def confKey (k : List Nat) : Key := dbConf ++ k

/-- tx.Get as a pure map lookup: the value stored at k, if any. -/
def txGet (db : DB) (k : Key) : Option (List Nat) :=
  match db with
  | [] => none
  | kv :: rest => if kv.1 = k then some kv.2 else txGet rest k

/-- tx.Set: insert or replace at k, keeping the list sorted. -/
def txSet (db : DB) (k : Key) (v : List Nat) : DB :=
  match db with
  | [] => [(k, v)]
  | kv :: rest =>
    if lexLt k kv.1 then (k, v) :: kv :: rest
    else if k = kv.1 then (k, v) :: rest
    else kv :: txSet rest k v

/-- tx.Delete without failure injection: the state with k removed and
whether k was present (absent maps to buntdb.ErrNotFound below). -/
def txDelete (db : DB) (k : Key) : DB × Bool :=
  match db with
  | [] => ([], false)
  | kv :: rest =>
    if kv.1 = k then ((txDelete rest k).1, true)
    else (kv :: (txDelete rest k).1, (txDelete rest k).2)

/-- tx.Delete with an injected engine outcome: oracle failures come
first, otherwise deleting an absent key reports notFound. -/
def txDeleteE (oracle : Option Err) (db : DB) (k : Key) : Except Err DB :=
  match oracle with
  | some e => .error e
  | none =>
    if (txDelete db k).2 then .ok (txDelete db k).1 else .error .notFound

/-- tx.Get with an injected engine outcome: oracle failures come
first, otherwise an absent key reports notFound. -/
def engineGet (oracle : Option Err) (db : DB) (k : Key) : Except Err (List Nat) :=
  match oracle with
  | some e => .error e
  | none =>
    match txGet db k with
    | some v => .ok v
    | none => .error .notFound

/-- The oracle that injects no engine failure. -/
def noFail : Nat → Option Err := fun _ => none

/-! ### The store methods (bunt_store.go) -/

/-- FirstIndex: one AscendGreaterOrEqual("", "l:") scan that stops at
the first visited key; the callback strips the two-byte prefix, and an
empty suffix (no key visited) yields 0. -/
def FirstIndex (db : DB) : Nat :=
  match (db.filter (fun kv => !lexLt kv.1 dbLogs)).head? with
  | none => 0
  | some kv =>
    let snum := kv.1.drop 2
    if snum = [] then 0 else stringToUint64 snum

/-- LastIndex: one DescendGreaterThan("", "l:") scan, i.e. the keys
strictly above "l:" visited in descending order, stopping at the first
one. -/
def LastIndex (db : DB) : Nat :=
  match (db.reverse.filter (fun kv => lexLt dbLogs kv.1)).head? with
  | none => 0
  | some kv =>
    let snum := kv.1.drop 2
    if snum = [] then 0 else stringToUint64 snum

/-- GetLog: read the encoded entry at the log key for idx inside a
view, mapping the engine's notFound to raft.ErrLogNotFound, then
decode. -/
def GetLog (oracle : Option Err) (db : DB) (idx : Nat) : Except Err RaftLog :=
  match engineGet oracle db (logKey idx) with
  | .error e => if e = Err.notFound then .error .logNotFound else .error e
  | .ok v => decodeLog v

/-- Get of bunt_store.go: on the engine's notFound it returns
ErrKeyNotFound, but any other engine error falls through the
unterminated error branch and the function returns the (nil, made
empty) value with a nil error. -/
def Get (oracle : Option Err) (db : DB) (k : List Nat) : Except Err (List Nat) :=
  match engineGet oracle db (confKey k) with
  | .error e => if e = Err.notFound then .error .keyNotFound else .ok []
  | .ok v => .ok v

/-- GetUint64 of bunt_store.go: Get then stringToUint64, whose
ParseUint error is discarded. -/
def GetUint64 (oracle : Option Err) (db : DB) (k : List Nat) : Except Err Nat :=
  match Get oracle db k with
  | .error e => .error e
  | .ok v => .ok (stringToUint64 v)

/-- The body of the StoreLogs update transaction: encode each entry
and set it at its log key; the oracle gives the engine outcome of each
successive tx.Set (shifted by one on each step). -/
def storeLogsTx (oracle : Nat → Option Err) : List RaftLog → DB → Except Err DB
  | [], db => .ok db
  | l :: ls, db =>
    match oracle 0 with
    | some e => .error e
    | none => storeLogsTx (fun k => oracle (k + 1)) ls (txSet db (logKey l.index) (encodeLog l))

/-- StoreLogs: the transaction body under db.Update, whose ACID
contract rolls the state back when the body returns an error. -/
def StoreLogs (oracle : Nat → Option Err) (logs : List RaftLog) (db : DB) :
    Option Err × DB :=
  match storeLogsTx oracle logs db with
  | .error e => (some e, db)
  | .ok db2 => (none, db2)

/-- One DeleteRange loop pass with explicit fuel: for i := min; i <= max;
i++ over a uint64 counter, so the increment wraps modulo 2^64.  none
means the fuel ran out before the loop exited. -/
def deleteLoop (oracle : Nat → Option Err) : Nat → Nat → Nat → DB → Option (Except Err DB)
  | 0, _, _, _ => none
  | f + 1, i, mx, db =>
    if i ≤ mx then
      match txDeleteE (oracle i) db (logKey i) with
      | .error e =>
        if e = Err.notFound then deleteLoop oracle f ((i + 1) % N64) mx db
        else some (.error e)
      | .ok db2 => deleteLoop oracle f ((i + 1) % N64) mx db2
    else some (.ok db)

/-- DeleteRange: the loop under db.Update; an error rolls the state
back, success commits the loop's final state. -/
def DeleteRange (oracle : Nat → Option Err) (db : DB) (mn mx fuel : Nat) :
    Option (Option Err × DB) :=
  match deleteLoop oracle fuel mn mx db with
  | none => none
  | some (.error e) => some (some e, db)
  | some (.ok db2) => some (none, db2)

/-- The straight-line effect of the loop body applied cnt times
starting at index s, used to describe the committed state. -/
def delRange (db : DB) (s : Nat) : Nat → DB
  | 0 => db
  | c + 1 => delRange (txDelete db (logKey s)).1 (s + 1) c

/-! ### Fixtures: the store state used by the concrete test points -/

/-- The three-entry batch the spec's test points store. -/
def logs123 : List RaftLog :=
  [⟨1, 0, 0, [108, 111, 103, 49]⟩, ⟨2, 0, 0, [108, 111, 103, 50]⟩,
   ⟨3, 0, 0, [108, 111, 103, 51]⟩]

/-- The state after StoreLogs of logs123 on an empty store. -/
def db123 : DB := (StoreLogs noFail logs123 []).2

/-- A store holding one metadata entry and no log entries. -/
def db0conf : DB := txSet [] (confKey [97]) [98]

/-- An oracle that fails the second engine write with an I/O error. -/
def failSecond : Nat → Option Err := fun k => if k = 1 then some (Err.io 7) else none

/-! ### Lookup / update / delete lemmas -/

theorem txGet_txSet_self : ∀ (db : DB) k v, txGet (txSet db k v) k = some v := by
  intro db k v
  induction db with
  | nil => simp [txSet, txGet]
  | cons kv rest ih =>
    rw [txSet]
    by_cases h1 : lexLt k kv.1 = true
    · rw [if_pos h1, txGet]
      simp
    · rw [if_neg h1]
      by_cases h2 : k = kv.1
      · rw [if_pos h2, txGet]
        simp
      · rw [if_neg h2, txGet, if_neg (fun hc => h2 hc.symm)]
        exact ih

theorem txGet_txSet_other : ∀ (db : DB) k v k2, k2 ≠ k →
    txGet (txSet db k v) k2 = txGet db k2 := by
  intro db k v k2 hne
  induction db with
  | nil =>
    show txGet [(k, v)] k2 = txGet [] k2
    have hne2 : ¬ ((k, v).1 = k2) := fun hc => hne hc.symm
    simp [txGet, hne2]
  | cons kv rest ih =>
    rw [txSet]
    by_cases h1 : lexLt k kv.1 = true
    · rw [if_pos h1, txGet, if_neg (fun hc : (k, v).1 = k2 => hne hc.symm)]
    · rw [if_neg h1]
      by_cases h2 : k = kv.1
      · rw [if_pos h2, txGet, txGet,
          if_neg (fun hc : k = k2 => hne hc.symm),
          if_neg (by rw [← h2]; exact fun hc => hne hc.symm)]
      · rw [if_neg h2, txGet, txGet, ih]

theorem txGet_mem : ∀ (db : DB) k v, txGet db k = some v → (k, v) ∈ db := by
  intro db k v
  induction db with
  | nil => intro h; simp [txGet] at h
  | cons kv rest ih =>
    intro h
    rw [txGet] at h
    by_cases hk : kv.1 = k
    · rw [if_pos hk] at h
      have hv : kv.2 = v := by injection h
      rw [List.mem_cons]
      left
      rw [← hk, ← hv]
    · rw [if_neg hk] at h
      exact List.mem_cons_of_mem kv (ih h)

theorem mem_txGet_isSome : ∀ (db : DB) k v, (k, v) ∈ db → (txGet db k).isSome = true := by
  intro db k v
  induction db with
  | nil => intro h; simp at h
  | cons kv rest ih =>
    intro h
    rw [txGet]
    by_cases hk : kv.1 = k
    · rw [if_pos hk]; rfl
    · rw [if_neg hk]
      rcases List.mem_cons.1 h with heq | hmem
      · exact absurd (congrArg Prod.fst heq.symm) hk
      · exact ih hmem

theorem txGet_txDelete : ∀ (db : DB) k k2,
    txGet (txDelete db k).1 k2 = if k2 = k then none else txGet db k2 := by
  intro db k k2
  induction db with
  | nil =>
    show txGet [] k2 = if k2 = k then none else txGet [] k2
    by_cases h : k2 = k
    · rw [if_pos h]; rfl
    · rw [if_neg h]
  | cons kv rest ih =>
    rw [txDelete]
    by_cases hk : kv.1 = k
    · rw [if_pos hk]
      show txGet (txDelete rest k).1 k2 = _
      rw [ih]
      by_cases h2 : k2 = k
      · rw [if_pos h2, if_pos h2]
      · rw [if_neg h2, if_neg h2, txGet, if_neg (by rw [hk]; exact fun hc => h2 hc.symm)]
    · rw [if_neg hk]
      show txGet (kv :: (txDelete rest k).1) k2 = _
      rw [txGet]
      by_cases hh : kv.1 = k2
      · rw [if_pos hh, if_neg (by rw [← hh]; exact hk), txGet, if_pos hh]
      · rw [if_neg hh, ih, txGet, if_neg hh]

theorem txDelete_not_found : ∀ (db : DB) k, (txDelete db k).2 = false → (txDelete db k).1 = db := by
  intro db k
  induction db with
  | nil => intro h; rfl
  | cons kv rest ih =>
    intro h
    rw [txDelete] at h ⊢
    by_cases hk : kv.1 = k
    · rw [if_pos hk] at h
      exact absurd h (by simp)
    · rw [if_neg hk] at h ⊢
      replace h : (txDelete rest k).2 = false := h
      show kv :: (txDelete rest k).1 = kv :: rest
      rw [ih h]

/-! ### Key-shape facts -/

theorem uint64ToString_len20 (u : Nat) : (uint64ToString u).length = 20 := by
  show ((List.replicate 20 48 ++ formatUint10 u).drop
      ((List.replicate 20 48 ++ formatUint10 u).length - 20)).length = 20
  rw [List.length_drop]
  simp only [List.length_append, List.length_replicate]
  omega

theorem uint64ToString_ne_nil (u : Nat) : uint64ToString u ≠ [] := by
  intro h
  have := uint64ToString_len20 u
  rw [h] at this
  simp at this

theorem logKey_ne_confKey (i : Nat) (k : List Nat) : logKey i ≠ confKey k := by
  intro h
  have : (108 : Nat) :: 58 :: uint64ToString i = 99 :: 58 :: k := h
  have h99 : (108 : Nat) = 99 := (List.cons.injEq _ _ _ _ ▸ this).1
  omega

theorem lexLt_conf_dbLogs (k : List Nat) : lexLt (confKey k) dbLogs = true := rfl

theorem lexLt_dbLogs_conf (k : List Nat) : lexLt dbLogs (confKey k) = false := rfl

theorem lexLt_logKey_dbLogs (i : Nat) : lexLt (logKey i) dbLogs = false :=
  lexLt_append_self dbLogs (uint64ToString i)

theorem lexLt_dbLogs_logKey (i : Nat) : lexLt dbLogs (logKey i) = true :=
  lexLt_self_append dbLogs (uint64ToString i) (uint64ToString_ne_nil i)

theorem logKey_drop2 (i : Nat) : (logKey i).drop 2 = uint64ToString i := rfl

theorem logKey_inj (i j : Nat) (hi : i < N64) (hj : j < N64) (h : logKey i = logKey j) :
    i = j := by
  apply uint64ToString_inj i j hi hj
  have : (108 : Nat) :: 58 :: uint64ToString i = 108 :: 58 :: uint64ToString j := h
  injection this with _ h2
  injection h2

theorem lexLt_logKey_iff (i j : Nat) (hi : i < N64) (hj : j < N64) :
    lexLt (logKey i) (logKey j) = true ↔ i < j := by
  constructor
  · intro h
    rcases Nat.lt_trichotomy i j with hlt | rfl | hlt
    · exact hlt
    · rw [show logKey i = dbLogs ++ uint64ToString i from rfl, lexLt_append_left,
        lexLt_irrefl] at h
      exact absurd h (by simp)
    · have hm := uint64ToString_mono j i hlt hi
      rw [show logKey i = dbLogs ++ uint64ToString i from rfl,
        show logKey j = dbLogs ++ uint64ToString j from rfl, lexLt_append_left] at h
      rw [lexLt_asymm _ _ hm] at h
      exact absurd h (by simp)
  · intro h
    rw [show logKey i = dbLogs ++ uint64ToString i from rfl,
      show logKey j = dbLogs ++ uint64ToString j from rfl, lexLt_append_left]
    exact uint64ToString_mono i j h hj

/-! ### DeleteRange loop lemmas -/

theorem delRange_txGet_outside : ∀ c s (db : DB) k,
    (∀ j, s ≤ j → j < s + c → k ≠ logKey j) →
    txGet (delRange db s c) k = txGet db k := by
  intro c
  induction c with
  | zero => intro s db k h; rfl
  | succ c ih =>
    intro s db k h
    rw [delRange]
    rw [ih (s + 1) _ k (fun j hj1 hj2 => h j (by omega) (by omega))]
    rw [txGet_txDelete]
    rw [if_neg (h s le_rfl (by omega))]

theorem txGet_none_delRange : ∀ c s (db : DB) k, txGet db k = none →
    txGet (delRange db s c) k = none := by
  intro c
  induction c with
  | zero => intro s db k h; exact h
  | succ c ih =>
    intro s db k h
    rw [delRange]
    apply ih
    rw [txGet_txDelete]
    by_cases hk : k = logKey s
    · rw [if_pos hk]
    · rw [if_neg hk]; exact h

theorem delRange_txGet_inside : ∀ c s (db : DB) j, s ≤ j → j < s + c →
    txGet (delRange db s c) (logKey j) = none := by
  intro c
  induction c with
  | zero => intro s db j h1 h2; omega
  | succ c ih =>
    intro s db j h1 h2
    rw [delRange]
    by_cases hj : j = s
    · apply txGet_none_delRange
      rw [txGet_txDelete, if_pos (by rw [hj])]
    · exact ih (s + 1) _ j (by omega) (by omega)

theorem deleteLoop_run : ∀ c i (db : DB), i + c + 1 < N64 →
    deleteLoop noFail (c + 2) i (i + c) db = some (.ok (delRange db i (c + 1))) := by
  intro c
  induction c with
  | zero =>
    intro i db h
    rw [deleteLoop, if_pos (by omega)]
    by_cases hf : (txDelete db (logKey i)).2 = true
    · have hdel : txDeleteE (noFail i) db (logKey i) = .ok (txDelete db (logKey i)).1 := by
        simp [txDeleteE, noFail, hf]
      rw [hdel]
      show deleteLoop noFail 1 ((i + 1) % N64) (i + 0) (txDelete db (logKey i)).1
          = some (.ok (delRange db i 1))
      rw [Nat.mod_eq_of_lt (by omega), deleteLoop, if_neg (by omega)]
      rfl
    · have hf2 : (txDelete db (logKey i)).2 = false := by
        revert hf
        cases (txDelete db (logKey i)).2 <;> simp
      have hdel : txDeleteE (noFail i) db (logKey i) = .error .notFound := by
        simp [txDeleteE, noFail, hf2]
      rw [hdel]
      show deleteLoop noFail 1 ((i + 1) % N64) (i + 0) db = some (.ok (delRange db i 1))
      rw [Nat.mod_eq_of_lt (by omega), deleteLoop, if_neg (by omega)]
      rw [delRange, delRange, txDelete_not_found db (logKey i) hf2]
  | succ c ih =>
    intro i db h
    rw [deleteLoop, if_pos (by omega)]
    by_cases hf : (txDelete db (logKey i)).2 = true
    · have hdel : txDeleteE (noFail i) db (logKey i) = .ok (txDelete db (logKey i)).1 := by
        simp [txDeleteE, noFail, hf]
      rw [hdel]
      show deleteLoop noFail (c + 2) ((i + 1) % N64) (i + (c + 1)) (txDelete db (logKey i)).1
          = some (.ok (delRange db i (c + 2)))
      rw [Nat.mod_eq_of_lt (by omega), delRange]
      rw [show i + (c + 1) = i + 1 + c from by omega]
      exact ih (i + 1) _ (by omega)
    · have hf2 : (txDelete db (logKey i)).2 = false := by
        revert hf
        cases (txDelete db (logKey i)).2 <;> simp
      have hdel : txDeleteE (noFail i) db (logKey i) = .error .notFound := by
        simp [txDeleteE, noFail, hf2]
      rw [hdel]
      show deleteLoop noFail (c + 2) ((i + 1) % N64) (i + (c + 1)) db
          = some (.ok (delRange db i (c + 2)))
      rw [Nat.mod_eq_of_lt (by omega), delRange, txDelete_not_found db (logKey i) hf2]
      rw [show i + (c + 1) = i + 1 + c from by omega]
      exact ih (i + 1) db (by omega)

theorem deleteLoop_none : ∀ f i (db : DB), i < N64 →
    deleteLoop noFail f i (N64 - 1) db = none := by
  intro f
  induction f with
  | zero => intro i db h; rfl
  | succ f ih =>
    intro i db h
    rw [deleteLoop, if_pos (by omega)]
    by_cases hf : (txDelete db (logKey i)).2 = true
    · have hdel : txDeleteE (noFail i) db (logKey i) = .ok (txDelete db (logKey i)).1 := by
        simp [txDeleteE, noFail, hf]
      rw [hdel]
      show deleteLoop noFail f ((i + 1) % N64) (N64 - 1) (txDelete db (logKey i)).1 = none
      exact ih _ _ (Nat.mod_lt _ (by norm_num [N64]))
    · have hf2 : (txDelete db (logKey i)).2 = false := by
        revert hf
        cases (txDelete db (logKey i)).2 <;> simp
      have hdel : txDeleteE (noFail i) db (logKey i) = .error .notFound := by
        simp [txDeleteE, noFail, hf2]
      rw [hdel]
      show deleteLoop noFail f ((i + 1) % N64) (N64 - 1) db = none
      exact ih _ _ (Nat.mod_lt _ (by norm_num [N64]))

theorem deleteLoop_error_first (f i mx : Nat) (db : DB) (e : Err)
    (he : e ≠ Err.notFound) (hi : i ≤ mx) :
    deleteLoop (fun _ => some e) (f + 1) i mx db = some (.error e) := by
  rw [deleteLoop, if_pos hi]
  have hdel : txDeleteE ((fun _ => some e) i) db (logKey i) = .error e := rfl
  rw [hdel]
  show (if e = Err.notFound then deleteLoop (fun _ => some e) f ((i + 1) % N64) mx db
        else some (.error e)) = some (.error e)
  rw [if_neg he]

/-! ### StoreLogs transaction lemmas -/

theorem storeLogsTx_error : ∀ (logs : List RaftLog) (oracle : Nat → Option Err) (db : DB) K e,
    K < logs.length → (∀ k, k < K → oracle k = none) → oracle K = some e →
    storeLogsTx oracle logs db = .error e := by
  intro logs
  induction logs with
  | nil => intro oracle db K e hK _ _; simp at hK
  | cons l ls ih =>
    intro oracle db K e hK hpre hKe
    rw [storeLogsTx]
    match K, hK, hKe with
    | 0, _, hKe =>
      rw [hKe]
    | K + 1, hK, hKe =>
      rw [hpre 0 (by omega)]
      exact ih (fun k => oracle (k + 1)) _ K e
        (by simp only [List.length_cons] at hK; omega)
        (fun k hk => hpre (k + 1) (by omega)) hKe

theorem storeLogsTx_ok : ∀ (logs : List RaftLog) (oracle : Nat → Option Err) (db : DB),
    (∀ k, k < logs.length → oracle k = none) →
    storeLogsTx oracle logs db =
      .ok (logs.foldl (fun d l => txSet d (logKey l.index) (encodeLog l)) db) := by
  intro logs
  induction logs with
  | nil => intro oracle db h; rfl
  | cons l ls ih =>
    intro oracle db h
    rw [storeLogsTx, h 0 (by simp)]
    exact ih _ _ (fun k hk => h (k + 1) (by simp only [List.length_cons]; omega))

theorem foldl_txGet_other : ∀ (ls : List RaftLog) (db : DB) k,
    (∀ l2 ∈ ls, logKey l2.index ≠ k) →
    txGet (ls.foldl (fun d l => txSet d (logKey l.index) (encodeLog l)) db) k = txGet db k := by
  intro ls
  induction ls with
  | nil => intro db k h; rfl
  | cons l ls ih =>
    intro db k h
    rw [List.foldl_cons, ih _ _ (fun l2 hl2 => h l2 (List.mem_cons_of_mem l hl2))]
    exact txGet_txSet_other db (logKey l.index) (encodeLog l) k
      (fun hc => h l (List.mem_cons_self l ls) hc.symm)

theorem foldl_txGet_stored : ∀ (ls : List RaftLog) (db : DB) l,
    l ∈ ls → (ls.map RaftLog.index).Nodup → (∀ l2 ∈ ls, l2.index < N64) →
    txGet (ls.foldl (fun d l => txSet d (logKey l.index) (encodeLog l)) db) (logKey l.index)
      = some (encodeLog l) := by
  intro ls
  induction ls with
  | nil => intro db l h; simp at h
  | cons x xs ih =>
    intro db l hmem hnd hlt
    rw [List.foldl_cons]
    have hnd2 : (x.index :: xs.map RaftLog.index).Nodup := by simpa using hnd
    rcases List.mem_cons.1 hmem with rfl | hmem2
    · have hnotin : ∀ l2 ∈ xs, logKey l2.index ≠ logKey l.index := by
        intro l2 hl2 hc
        have heq : l2.index = l.index :=
          logKey_inj _ _ (hlt l2 (List.mem_cons_of_mem _ hl2))
            (hlt l (List.mem_cons_self _ _)) hc
        have hni : l.index ∉ xs.map RaftLog.index := (List.nodup_cons.1 hnd2).1
        exact hni (heq ▸ List.mem_map_of_mem RaftLog.index hl2)
      rw [foldl_txGet_other xs _ _ hnotin]
      exact txGet_txSet_self db _ _
    · exact ih _ l hmem2 (List.nodup_cons.1 hnd2).2
        (fun l2 hl2 => hlt l2 (List.mem_cons_of_mem _ hl2))

/-! ### FirstIndex / LastIndex analysis -/

/-- The engine keeps keys in ascending byte order; scans iterate in
that order. -/
abbrev Sorted (db : DB) : Prop := List.Pairwise (fun a b => lexLt a.1 b.1 = true) db

/-- Every key is a metadata key or the log key of a uint64 index: the
only keys the store's writers (Set and StoreLogs) produce. -/
def WellFormed (db : DB) : Prop :=
  ∀ kv ∈ db, (∃ k, kv.1 = confKey k) ∨ (∃ i, i < N64 ∧ kv.1 = logKey i)

/-- Index i has an entry in the store. -/
def hasLog (db : DB) (i : Nat) : Prop := (txGet db (logKey i)).isSome = true

theorem hasLog_mem (db : DB) (i : Nat) (h : hasLog db i) : ∃ v, (logKey i, v) ∈ db := by
  rcases Option.isSome_iff_exists.1 h with ⟨v, hv⟩
  exact ⟨v, txGet_mem db _ v hv⟩

theorem firstIndex_spec (db : DB) (hs : Sorted db) (hw : WellFormed db) :
    ((∀ i, i < N64 → ¬ hasLog db i) → FirstIndex db = 0) ∧
    (∀ i0, i0 < N64 → hasLog db i0 →
      hasLog db (FirstIndex db) ∧ ∀ i, i < N64 → hasLog db i → FirstIndex db ≤ i) := by
  cases hF : db.filter (fun kv => !lexLt kv.1 dbLogs) with
  | nil =>
    constructor
    · intro _
      rw [FirstIndex, hF]
      rfl
    · intro i0 hi0 hlog
      exfalso
      rcases hasLog_mem db i0 hlog with ⟨v, hmem⟩
      have hfil : (logKey i0, v) ∈ db.filter (fun kv => !lexLt kv.1 dbLogs) :=
        List.mem_filter.2 ⟨hmem, by simp [lexLt_logKey_dbLogs]⟩
      rw [hF] at hfil
      simp at hfil
  | cons kv0 F2 =>
    have hkv0fil : kv0 ∈ db.filter (fun kv => !lexLt kv.1 dbLogs) := by
      rw [hF]; exact List.mem_cons_self _ _
    have hkv0db : kv0 ∈ db := (List.mem_filter.1 hkv0fil).1
    have hkv0p : (!lexLt kv0.1 dbLogs) = true := (List.mem_filter.1 hkv0fil).2
    rcases hw kv0 hkv0db with ⟨kk, hkey⟩ | ⟨i1, hi1, hkey⟩
    · exfalso
      rw [hkey, lexLt_conf_dbLogs] at hkv0p
      simp at hkv0p
    · have hval : FirstIndex db = i1 := by
        rw [FirstIndex, hF]
        show (if kv0.1.drop 2 = [] then 0 else stringToUint64 (kv0.1.drop 2)) = i1
        rw [hkey, logKey_drop2, if_neg (uint64ToString_ne_nil i1)]
        exact stringToUint64_uint64ToString i1 hi1
      have hpair : List.Pairwise (fun a b => lexLt a.1 b.1 = true) (kv0 :: F2) := by
        rw [← hF]
        exact hs.sublist (List.filter_sublist db)
      have hmin : ∀ i, i < N64 → hasLog db i → i1 ≤ i := by
        intro i hi hlog
        rcases hasLog_mem db i hlog with ⟨v, hmem⟩
        have hfil : (logKey i, v) ∈ db.filter (fun kv => !lexLt kv.1 dbLogs) :=
          List.mem_filter.2 ⟨hmem, by simp [lexLt_logKey_dbLogs]⟩
        rw [hF] at hfil
        rcases List.mem_cons.1 hfil with heq | hmem2
        · have hkeq : logKey i = logKey i1 := by
            rw [← hkey]
            exact congrArg Prod.fst heq
          exact le_of_eq (logKey_inj i i1 hi hi1 hkeq).symm
        · have hrel := (List.pairwise_cons.1 hpair).1 _ hmem2
          rw [hkey] at hrel
          exact le_of_lt ((lexLt_logKey_iff i1 i hi1 hi).1 hrel)
      constructor
      · intro hnone
        exfalso
        apply hnone i1 hi1
        rw [hasLog]
        apply mem_txGet_isSome db (logKey i1) kv0.2
        rw [← hkey]
        exact hkv0db
      · intro i0 hi0 hlog
        refine ⟨?_, ?_⟩
        · rw [hval, hasLog]
          apply mem_txGet_isSome db (logKey i1) kv0.2
          rw [← hkey]
          exact hkv0db
        · intro i hi hl
          rw [hval]
          exact hmin i hi hl

theorem lastIndex_spec (db : DB) (hs : Sorted db) (hw : WellFormed db) :
    ((∀ i, i < N64 → ¬ hasLog db i) → LastIndex db = 0) ∧
    (∀ i0, i0 < N64 → hasLog db i0 →
      hasLog db (LastIndex db) ∧ ∀ i, i < N64 → hasLog db i → i ≤ LastIndex db) := by
  cases hF : db.reverse.filter (fun kv => lexLt dbLogs kv.1) with
  | nil =>
    constructor
    · intro _
      rw [LastIndex, hF]
      rfl
    · intro i0 hi0 hlog
      exfalso
      rcases hasLog_mem db i0 hlog with ⟨v, hmem⟩
      have hfil : (logKey i0, v) ∈ db.reverse.filter (fun kv => lexLt dbLogs kv.1) :=
        List.mem_filter.2 ⟨List.mem_reverse.2 hmem, by simp [lexLt_dbLogs_logKey]⟩
      rw [hF] at hfil
      simp at hfil
  | cons kv0 F2 =>
    have hkv0fil : kv0 ∈ db.reverse.filter (fun kv => lexLt dbLogs kv.1) := by
      rw [hF]; exact List.mem_cons_self _ _
    have hkv0db : kv0 ∈ db := List.mem_reverse.1 (List.mem_filter.1 hkv0fil).1
    have hkv0p : lexLt dbLogs kv0.1 = true := (List.mem_filter.1 hkv0fil).2
    rcases hw kv0 hkv0db with ⟨kk, hkey⟩ | ⟨i1, hi1, hkey⟩
    · exfalso
      rw [hkey, lexLt_dbLogs_conf] at hkv0p
      simp at hkv0p
    · have hval : LastIndex db = i1 := by
        rw [LastIndex, hF]
        show (if kv0.1.drop 2 = [] then 0 else stringToUint64 (kv0.1.drop 2)) = i1
        rw [hkey, logKey_drop2, if_neg (uint64ToString_ne_nil i1)]
        exact stringToUint64_uint64ToString i1 hi1
      have hsrev : List.Pairwise (fun a b => lexLt b.1 a.1 = true) db.reverse :=
        List.pairwise_reverse.2 hs
      have hpair : List.Pairwise (fun a b => lexLt b.1 a.1 = true) (kv0 :: F2) := by
        rw [← hF]
        exact hsrev.sublist (List.filter_sublist db.reverse)
      have hmax : ∀ i, i < N64 → hasLog db i → i ≤ i1 := by
        intro i hi hlog
        rcases hasLog_mem db i hlog with ⟨v, hmem⟩
        have hfil : (logKey i, v) ∈ db.reverse.filter (fun kv => lexLt dbLogs kv.1) :=
          List.mem_filter.2 ⟨List.mem_reverse.2 hmem, by simp [lexLt_dbLogs_logKey]⟩
        rw [hF] at hfil
        rcases List.mem_cons.1 hfil with heq | hmem2
        · have hkeq : logKey i = logKey i1 := by
            rw [← hkey]
            exact congrArg Prod.fst heq
          exact le_of_eq (logKey_inj i i1 hi hi1 hkeq)
        · have hrel := (List.pairwise_cons.1 hpair).1 _ hmem2
          rw [hkey] at hrel
          exact le_of_lt ((lexLt_logKey_iff i i1 hi hi1).1 hrel)
      constructor
      · intro hnone
        exfalso
        apply hnone i1 hi1
        rw [hasLog]
        apply mem_txGet_isSome db (logKey i1) kv0.2
        rw [← hkey]
        exact hkv0db
      · intro i0 hi0 hlog
        refine ⟨?_, ?_⟩
        · rw [hval, hasLog]
          apply mem_txGet_isSome db (logKey i1) kv0.2
          rw [← hkey]
          exact hkv0db
        · intro i hi hl
          rw [hval]
          exact hmax i hi hl

/-! ### Fixture facts -/

theorem sorted_db123 : Sorted db123 := by decide

theorem sorted_db0conf : Sorted db0conf := by decide

theorem wf_db123 : WellFormed db123 := by
  intro kv h
  rw [show db123 = [(logKey 1, encodeLog ⟨1, 0, 0, [108, 111, 103, 49]⟩),
      (logKey 2, encodeLog ⟨2, 0, 0, [108, 111, 103, 50]⟩),
      (logKey 3, encodeLog ⟨3, 0, 0, [108, 111, 103, 51]⟩)] from by decide] at h
  simp only [List.mem_cons, List.not_mem_nil, or_false] at h
  rcases h with rfl | rfl | rfl
  · exact Or.inr ⟨1, by decide, rfl⟩
  · exact Or.inr ⟨2, by decide, rfl⟩
  · exact Or.inr ⟨3, by decide, rfl⟩

theorem wf_db0conf : WellFormed db0conf := by
  intro kv h
  rw [show db0conf = [(confKey [97], [98])] from rfl] at h
  simp only [List.mem_cons, List.not_mem_nil, or_false] at h
  rw [h]
  exact Or.inl ⟨[97], rfl⟩

theorem noLogs_db0conf : ∀ i, i < N64 → ¬ hasLog db0conf i := by
  intro i _ h
  rw [hasLog] at h
  have hnone : txGet db0conf (logKey i) = none := by
    show (if confKey [97] = logKey i then some [98] else txGet [] (logKey i)) = none
    rw [if_neg (fun hc => logKey_ne_confKey i [97] hc.symm)]
    rfl
  rw [hnone] at h
  simp at h

/-! ### The claims -/

/-- C1 (amended): for the 20-digit zero-padded decimal key encoding of
bunt_store.go / part_004, i < j implies the key suffix of i sorts
strictly before that of j under byte-wise comparison; the 8-byte
little-endian binary encoding of the part_003 snapshot violates the
ordering (already at i = 1, j = 256 the key of j sorts before the key
of i), so the property does not hold for every variant in the
repository. -/
theorem key_order_amended :
    (∀ i j : Nat, i < j → j < N64 → lexLt (uint64ToString i) (uint64ToString j) = true) ∧
    lexLt (uint64ToStringLE 256) (uint64ToStringLE 1) = true :=
  ⟨fun i j hij hj => uint64ToString_mono i j hij hj, by decide⟩

/-- C1 counterexample: with the little-endian binary key encoding at
i = 1 < j = 256, the encoded key of i does not sort before the encoded
key of j, refuting the claim for that encoding variant. -/
theorem key_order_le_counterexample :
    lexLt (uint64ToStringLE 1) (uint64ToStringLE 256) = false := by decide

/-- C2: decodeLog inverts encodeLog for every entry whose index and
term are uint64 values and whose type tag is one byte, for any payload
including the zero-length one. -/
theorem encodeLog_roundtrip (l : RaftLog) (hi : l.index < N64) (ht : l.term < N64)
    (hy : l.type < 256) : decodeLog (encodeLog l) = .ok l :=
  decode_encode l hi ht hy

/-- C2 witness: the round-trip at a concrete entry with zero-length
payload and at one with maximal index and term. -/
theorem encodeLog_roundtrip_witness :
    decodeLog (encodeLog ⟨1, 2, 255, []⟩) = .ok ⟨1, 2, 255, []⟩ ∧
    decodeLog (encodeLog ⟨N64 - 1, N64 - 1, 3, [0, 255, 7]⟩)
      = .ok ⟨N64 - 1, N64 - 1, 3, [0, 255, 7]⟩ :=
  ⟨encodeLog_roundtrip ⟨1, 2, 255, []⟩ (by decide) (by decide) (by decide),
   encodeLog_roundtrip ⟨N64 - 1, N64 - 1, 3, [0, 255, 7]⟩ (by decide) (by decide) (by decide)⟩

/-- C3: StoreLogs is all-or-nothing: if the K-th engine write fails,
the state observable after the call is the state before it and that
error is returned; when no write fails the call succeeds and every
entry of the batch is persisted and retrievable by its index. -/
theorem storeLogs_atomic (oracle : Nat → Option Err) (logs : List RaftLog) (db : DB)
    (hidx : ∀ l ∈ logs, l.index < N64) (hnd : (logs.map RaftLog.index).Nodup) :
    (∀ K e, K < logs.length → (∀ k, k < K → oracle k = none) → oracle K = some e →
      StoreLogs oracle logs db = (some e, db)) ∧
    ((∀ k, k < logs.length → oracle k = none) →
      (StoreLogs oracle logs db).1 = none ∧
      ∀ l ∈ logs, l.term < N64 → l.type < 256 →
        GetLog none (StoreLogs oracle logs db).2 l.index = .ok l) := by
  constructor
  · intro K e hK hpre hKe
    rw [StoreLogs, storeLogsTx_error logs oracle db K e hK hpre hKe]
  · intro hnone
    rw [StoreLogs, storeLogsTx_ok logs oracle db hnone]
    constructor
    · rfl
    · intro l hmem hterm htype
      have hstored := foldl_txGet_stored logs db l hmem hnd hidx
      have hget : engineGet none
          (logs.foldl (fun d l => txSet d (logKey l.index) (encodeLog l)) db)
          (logKey l.index) = .ok (encodeLog l) := by
        simp [engineGet, hstored]
      show GetLog none (logs.foldl (fun d l => txSet d (logKey l.index) (encodeLog l)) db)
          l.index = .ok l
      rw [GetLog, hget]
      exact decode_encode l (hidx l hmem) hterm htype

/-- C3 witness: the theorem at the three-entry batch, once with an
oracle failing the second write (state rolled back to empty, the I/O
error returned) and once with no failure (entry 2 retrievable). -/
theorem storeLogs_atomic_witness :
    StoreLogs failSecond logs123 [] = (some (Err.io 7), []) ∧
    GetLog none (StoreLogs noFail logs123 []).2 2 = .ok ⟨2, 0, 0, [108, 111, 103, 50]⟩ := by
  constructor
  · exact (storeLogs_atomic failSecond logs123 [] (by decide) (by decide)).1 1 (Err.io 7)
      (by decide)
      (fun k hk => match k, hk with
        | 0, _ => rfl
        | k + 1, hk => absurd hk (by omega))
      rfl
  · exact ((storeLogs_atomic noFail logs123 [] (by decide) (by decide)).2
      (fun k hk => rfl)).2 ⟨2, 0, 0, [108, 111, 103, 50]⟩ (by decide) (by decide) (by decide)

/-- C4: evaluated at a failing engine read (an injected I/O error),
Get of bunt_store.go returns a successful empty value instead of
propagating the error — the error branch falls through — while the
absent-key case does return the typed ErrKeyNotFound. -/
theorem get_swallows_engine_error :
    Get (some (Err.io 0)) [] [97] = .ok [] ∧
    Get none [] [97] = .error .keyNotFound := by decide

/-- C5: on a sorted, well-formed store, FirstIndex and LastIndex both
return 0 when no log entry is present, and otherwise return the
smallest and the largest stored index; after storing entries with
indices {1,2,3} into an empty store, FirstIndex is 1 and LastIndex
is 3. -/
theorem firstLast_index_spec (db : DB) (hs : Sorted db) (hw : WellFormed db) :
    ((∀ i, i < N64 → ¬ hasLog db i) → FirstIndex db = 0 ∧ LastIndex db = 0) ∧
    (∀ i0, i0 < N64 → hasLog db i0 →
      (hasLog db (FirstIndex db) ∧ ∀ i, i < N64 → hasLog db i → FirstIndex db ≤ i) ∧
      (hasLog db (LastIndex db) ∧ ∀ i, i < N64 → hasLog db i → i ≤ LastIndex db)) ∧
    (FirstIndex db123 = 1 ∧ LastIndex db123 = 3) := by
  refine ⟨?_, ?_, by decide, by decide⟩
  · intro h
    exact ⟨(firstIndex_spec db hs hw).1 h, (lastIndex_spec db hs hw).1 h⟩
  · intro i0 hi0 hl
    exact ⟨(firstIndex_spec db hs hw).2 i0 hi0 hl, (lastIndex_spec db hs hw).2 i0 hi0 hl⟩

/-- C5 witness: the theorem applied to a store holding only one
metadata entry (both indices 0 despite the metadata being present) and
to the store holding indices {1,2,3}. -/
theorem firstLast_index_spec_witness :
    (FirstIndex db0conf = 0 ∧ LastIndex db0conf = 0) ∧
    (FirstIndex db123 = 1 ∧ LastIndex db123 = 3) := by
  constructor
  · exact (firstLast_index_spec db0conf sorted_db0conf wf_db0conf).1 noLogs_db0conf
  · exact (firstLast_index_spec db123 sorted_db123 wf_db123).2.2

/-- C6 (amended): for min ≤ max with max < 2^64 − 1, DeleteRange
commits with no error, every log entry with index in [min, max] is
removed (GetLog then reports LogNotFound; indices in range with no
entry are silently skipped, since the state need not contain them),
every log entry outside the range and every metadata entry is left
untouched, and an engine error other than not-found aborts the call
with the error returned and the state rolled back.  At
max = 2^64 − 1 the uint64 loop counter wraps and the loop never
exits, so the claim's universal quantification over min ≤ max fails
there (see the counterexample). -/
theorem deleteRange_spec (db : DB) (mn mx : Nat) (h1 : mn ≤ mx) (h2 : mx + 1 < N64) :
    DeleteRange noFail db mn mx (mx + 2 - mn) = some (none, delRange db mn (mx + 1 - mn)) ∧
    (∀ i, mn ≤ i → i ≤ mx →
      GetLog none (delRange db mn (mx + 1 - mn)) i = .error .logNotFound) ∧
    (∀ i, i < N64 → i < mn ∨ mx < i →
      GetLog none (delRange db mn (mx + 1 - mn)) i = GetLog none db i) ∧
    (∀ kk, txGet (delRange db mn (mx + 1 - mn)) (confKey kk) = txGet db (confKey kk)) ∧
    (∀ e, e ≠ Err.notFound →
      DeleteRange (fun _ => some e) db mn mx (mx + 2 - mn) = some (some e, db)) := by
  refine ⟨?_, ?_, ?_, ?_, ?_⟩
  · rw [DeleteRange]
    have hrun := deleteLoop_run (mx - mn) mn db (by omega)
    rw [show mn + (mx - mn) = mx from by omega] at hrun
    rw [show mx + 2 - mn = mx - mn + 2 from by omega,
      show mx + 1 - mn = mx - mn + 1 from by omega, hrun]
  · intro i hi1 hi2
    have hnone : txGet (delRange db mn (mx + 1 - mn)) (logKey i) = none :=
      delRange_txGet_inside (mx + 1 - mn) mn db i hi1 (by omega)
    have hget : engineGet none (delRange db mn (mx + 1 - mn)) (logKey i)
        = .error .notFound := by
      simp [engineGet, hnone]
    rw [GetLog, hget]
    rfl
  · intro i hi hout
    have htx : txGet (delRange db mn (mx + 1 - mn)) (logKey i) = txGet db (logKey i) := by
      apply delRange_txGet_outside
      intro j hj1 hj2 hc
      have hj64 : j < N64 := by omega
      have := logKey_inj i j hi hj64 hc
      omega
    rw [GetLog, GetLog]
    rw [show engineGet none (delRange db mn (mx + 1 - mn)) (logKey i)
        = engineGet none db (logKey i) from by simp [engineGet, htx]]
  · intro kk
    apply delRange_txGet_outside
    intro j hj1 hj2
    exact Ne.symm (logKey_ne_confKey j kk)
  · intro e he
    rw [DeleteRange, show mx + 2 - mn = (mx + 1 - mn) + 1 from by omega,
      deleteLoop_error_first (mx + 1 - mn) mn mx db e he h1]

/-- C6 counterexample: at min = max = 2^64 − 1 (bounds with
min ≤ max) the wrapped loop counter keeps the loop condition true
forever, so DeleteRange never returns for any amount of fuel and no
post-state exists; the claim as stated fails at that input. -/
theorem deleteRange_wrap_counterexample :
    ¬ ∃ fuel db2, DeleteRange noFail [] (N64 - 1) (N64 - 1) fuel = some (none, db2) := by
  rintro ⟨fuel, db2, h⟩
  rw [DeleteRange, deleteLoop_none fuel (N64 - 1) [] (by norm_num [N64])] at h
  have h2 : (none : Option (Option Err × DB)) = some (none, db2) := h
  exact Option.noConfusion h2

/-- C6 witness: deleting [1,2] from the {1,2,3} store succeeds, makes
GetLog report LogNotFound for 1 and 2, and leaves 3 as before. -/
theorem deleteRange_spec_witness :
    DeleteRange noFail db123 1 2 3 = some (none, delRange db123 1 2) ∧
    GetLog none (delRange db123 1 2) 1 = .error .logNotFound ∧
    GetLog none (delRange db123 1 2) 2 = .error .logNotFound ∧
    GetLog none (delRange db123 1 2) 3 = GetLog none db123 3 := by
  have h := deleteRange_spec db123 1 2 (by decide) (by decide)
  exact ⟨h.1, h.2.1 1 (by decide) (by decide), h.2.1 2 (by decide) (by decide),
    h.2.2.1 3 (by decide) (by decide)⟩

/-- C8 (amended): GetUint64 propagates the typed not-found condition
when the key is absent, but on any stored value — malformed included —
it returns, with no error, whatever number stringToUint64 yields (0 on
a syntax error, 2^64 − 1 on a range error), because the ParseUint
error is discarded. -/
theorem getUint64_amended (db : DB) (k : List Nat) :
    (txGet db (confKey k) = none → GetUint64 none db k = .error .keyNotFound) ∧
    (∀ v, txGet db (confKey k) = some v → GetUint64 none db k = .ok (stringToUint64 v)) := by
  constructor
  · intro h
    simp [GetUint64, Get, engineGet, h]
  · intro v h
    simp [GetUint64, Get, engineGet, h]

/-- C8 counterexample: with the non-numeric value "xyz" stored at a
key, whose parse reports failure, GetUint64 yields a successful 0
rather than an error. -/
theorem getUint64_malformed_counterexample :
    GetUint64 none (txSet [] (confKey [107]) [120, 121, 122]) [107] = .ok 0 ∧
    parseUint64 [120, 121, 122] = (0, false) := by decide

/-- C9: the log and metadata key namespaces are disjoint — no log key
for any index equals the metadata key of any caller key — and neither
the ascending scan filter of FirstIndex (keys at or above "l:") nor
the descending scan filter of LastIndex (keys above "l:") ever
contains a metadata key, over any engine state. -/
theorem namespaces_disjoint (i : Nat) (kk : List Nat) (db : DB) (kv : Key × List Nat) :
    logKey i ≠ confKey kk ∧
    (kv ∈ db.filter (fun x => !lexLt x.1 dbLogs) → kv.1 ≠ confKey kk) ∧
    (kv ∈ db.reverse.filter (fun x => lexLt dbLogs x.1) → kv.1 ≠ confKey kk) := by
  refine ⟨logKey_ne_confKey i kk, ?_, ?_⟩
  · intro hmem hc
    have hp := (List.mem_filter.1 hmem).2
    rw [hc, lexLt_conf_dbLogs] at hp
    simp at hp
  · intro hmem hc
    have hp := (List.mem_filter.1 hmem).2
    rw [hc, lexLt_dbLogs_conf] at hp
    simp at hp

/-- C10: with max = 2^64 − 1 the DeleteRange loop never exits on any
state and with any fuel: after the iteration at i = 2^64 − 1 the
uint64 counter wraps to 0 and the loop condition i <= max holds for
every uint64 value, so the claimed termination after max − min + 1
iterations fails at this edge case. -/
theorem deleteRange_loop_diverges (fuel : Nat) (db : DB) :
    deleteLoop noFail fuel (N64 - 1) (N64 - 1) db = none :=
  deleteLoop_none fuel (N64 - 1) db (by norm_num [N64])

end Raftbuntdb
